import Mathlib

/-!
Formal model of the `NFSR_cycle` repository.

The file embeds `example_feedback_functions.py` (the library of example
feedback functions) as Lean functions over bit lists, and models the
cycle-decomposition engine (`nfsr_cycle_calculator.py`, whose source is not
available) from the design specification.  Python functions that can raise
are embedded with `Except String`.
-/

namespace NFSRCycle

/-- Model of Python list subscripting `state[i]`: in range it yields the
element, out of range it raises an `IndexError`. -/
def pyIndex (state : List Nat) (i : Nat) : Except String Nat :=
  match state[i]? with
  | some b => Except.ok b
  | none => Except.error "IndexError: list index out of range"

/-- Embedding of `grain_feedback` (example_feedback_functions.py, lines 19-35):
raises unless the register has at least 5 bits, otherwise returns
`(linear ^ nonlinear) % 2` with `linear = x0 ^ x1 ^ x3 ^ x4` and
`nonlinear = (x1 & x2) ^ (x2 & x3) ^ (x3 & x4)`. -/
def grain_feedback (state : List Nat) : Except String Nat :=
  if state.length < 5 then
    Except.error "Grain feedback function requires at least 5 bits in the register"
  else
    Except.bind (pyIndex state 0) fun x0 =>
    Except.bind (pyIndex state 1) fun x1 =>
    Except.bind (pyIndex state 2) fun x2 =>
    Except.bind (pyIndex state 3) fun x3 =>
    Except.bind (pyIndex state 4) fun x4 =>
    let linear := Nat.xor (Nat.xor (Nat.xor x0 x1) x3) x4
    let nonlinear := Nat.xor (Nat.xor (Nat.land x1 x2) (Nat.land x2 x3)) (Nat.land x3 x4)
    Except.ok ((Nat.xor linear nonlinear) % 2)

/-- Embedding of `trivium_feedback` (example_feedback_functions.py, lines 38-49):
raises unless the register has at least 3 bits, otherwise returns
`(x0 ^ x2 ^ (x1 & x2)) % 2`. -/
def trivium_feedback (state : List Nat) : Except String Nat :=
  if state.length < 3 then
    Except.error "Trivium feedback function requires at least 3 bits in the register"
  else
    Except.bind (pyIndex state 0) fun x0 =>
    Except.bind (pyIndex state 1) fun x1 =>
    Except.bind (pyIndex state 2) fun x2 =>
    Except.ok ((Nat.xor (Nat.xor x0 x2) (Nat.land x1 x2)) % 2)

/-- Embedding of `alternating_step_generator` (example_feedback_functions.py,
lines 52-61): raises unless the register has at least 3 bits, otherwise
returns `state[1]` when `state[0] == 1` and `state[2]` otherwise. -/
def alternating_step_generator (state : List Nat) : Except String Nat :=
  if state.length < 3 then
    Except.error "Alternating step generator requires at least 3 bits in the register"
  else
    Except.bind (pyIndex state 0) fun x0 =>
    if x0 = 1 then pyIndex state 1 else pyIndex state 2

/-- Embedding of `majority_function` (example_feedback_functions.py, lines
64-72): `1` when `sum(state) > len(state) // 2`, else `0`; never raises. -/
def majority_function (state : List Nat) : Except String Nat :=
  Except.ok (if state.length / 2 < state.sum then 1 else 0)

/-- Embedding of `threshold_function` (example_feedback_functions.py, lines
75-82): computes `proportion = sum(state) / len(state)` and returns `1` when
`proportion >= threshold`, else `0`.  A zero-length state raises Python's
`ZeroDivisionError`.  The Python source divides and compares with floats; the
quotient and the threshold are modelled here with exact rational arithmetic. -/
def threshold_function (state : List Nat) (threshold : ℚ) : Except String Nat :=
  if state.length = 0 then
    Except.error "ZeroDivisionError: division by zero"
  else if threshold ≤ (state.sum : ℚ) / (state.length : ℚ) then
    Except.ok 1
  else
    Except.ok 0

/-- Embedding of `threshold_with_feedback` (example_feedback_functions.py,
lines 85-88): `threshold_function` at threshold `0.7`. -/
def threshold_with_feedback (state : List Nat) : Except String Nat :=
  threshold_function state (7 / 10)

/-- Embedding of `even_parity` (example_feedback_functions.py, lines 91-96):
returns `sum(state) % 2`; never raises. -/
def even_parity (state : List Nat) : Except String Nat :=
  Except.ok (state.sum % 2)

/-- Embedding of the `taps` dictionary inside `galois_lfsr`
(example_feedback_functions.py, lines 108-136): tap positions per register
length, as an association table. -/
def tapsTable : List (Nat × List Nat) :=
  [(2, [0, 1]), (3, [0, 1]), (4, [0, 1]), (5, [0, 2]), (6, [0, 1]), (7, [0, 1]),
   (8, [0, 2, 3, 4]), (9, [0, 4]), (10, [0, 3]), (11, [0, 2]), (15, [0, 1]),
   (16, [0, 1, 3, 12]), (17, [0, 3]), (18, [0, 7]), (19, [0, 1, 4, 18]),
   (20, [0, 3]), (21, [0, 2]), (22, [0, 1]), (23, [0, 5]), (24, [0, 1, 3, 4]),
   (25, [0, 3]), (28, [0, 3]), (29, [0, 2]), (30, [0, 1, 4, 6]), (31, [0, 3]),
   (32, [0, 1, 2, 22])]

/-- Embedding of the accumulation loop of `galois_lfsr`
(`for tap in taps[length]: result ^= state[tap]`), with Python subscripting. -/
def xorTaps (state : List Nat) : List Nat → Nat → Except String Nat
  | [], result => Except.ok result
  | tap :: rest, result =>
    match pyIndex state tap with
    | Except.ok b => xorTaps state rest (Nat.xor result b)
    | Except.error e => Except.error e

/-- Embedding of `galois_lfsr` (example_feedback_functions.py, lines 99-145):
raises when the state's length has no tap entry, otherwise XORs the state
bits at the tap positions for that length. -/
def galois_lfsr (state : List Nat) : Except String Nat :=
  match List.lookup state.length tapsTable with
  | none => Except.error ("No tap positions defined for register length " ++ toString state.length)
  | some ts => xorTaps state ts 0

/-- Embedding of the `functions` dictionary (example_feedback_functions.py,
lines 149-157): the named catalog of example feedback functions. -/
def functions : List (String × (List Nat → Except String Nat)) :=
  [("Grain Stream Cipher", grain_feedback),
   ("Trivium Stream Cipher", trivium_feedback),
   ("Alternating Step Generator", alternating_step_generator),
   ("Majority Function", majority_function),
   ("Threshold (70%)", threshold_with_feedback),
   ("Even Parity", even_parity),
   ("Galois LFSR", galois_lfsr)]

/-- The register lengths for which `galois_lfsr` has tap positions:
2..11, 15..25 and 28..32. -/
def supportedLengths : List Nat :=
  [2, 3, 4, 5, 6, 7, 8, 9, 10, 11, 15, 16, 17, 18, 19, 20, 21, 22, 23, 24, 25,
   28, 29, 30, 31, 32]

/-- Per-function length precondition of the catalog, keyed by the name used in
`functions`: at least 5 bits for the Grain function, at least 3 for Trivium and
the alternating step generator, a tap-table length for the Galois LFSR, and a
non-empty state for the remaining functions. -/
def lenOk : String → Nat → Bool
  | "Grain Stream Cipher", k => decide (5 ≤ k)
  | "Trivium Stream Cipher", k => decide (3 ≤ k)
  | "Alternating Step Generator", k => decide (3 ≤ k)
  | "Galois LFSR", k => supportedLengths.contains k
  | _, k => decide (1 ≤ k)

/-- Store-passing form of `grain_feedback`: the register list acts as the heap
threaded through the call.  The source performs only reads on the list
(`len`, subscripting), never an assignment, so the heap component returned is
the input list unchanged. -/
def grain_feedbackSP (state : List Nat) : Except String Nat × List Nat :=
  (grain_feedback state, state)

/-- Store-passing form of `trivium_feedback`; the source only reads the list,
so the heap is returned unchanged. -/
def trivium_feedbackSP (state : List Nat) : Except String Nat × List Nat :=
  (trivium_feedback state, state)

/-- Store-passing form of `alternating_step_generator`; the source only reads
the list, so the heap is returned unchanged. -/
def alternating_step_generatorSP (state : List Nat) : Except String Nat × List Nat :=
  (alternating_step_generator state, state)

/-- Store-passing form of `majority_function`; the source only reads the list
(`sum`, `len`), so the heap is returned unchanged. -/
def majority_functionSP (state : List Nat) : Except String Nat × List Nat :=
  (majority_function state, state)

/-- Store-passing form of `threshold_with_feedback`; the source only reads the
list (`sum`, `len`), so the heap is returned unchanged. -/
def threshold_with_feedbackSP (state : List Nat) : Except String Nat × List Nat :=
  (threshold_with_feedback state, state)

/-- Store-passing form of `even_parity`; the source only reads the list
(`sum`), so the heap is returned unchanged. -/
def even_paritySP (state : List Nat) : Except String Nat × List Nat :=
  (even_parity state, state)

/-- Store-passing form of `galois_lfsr`; the source only reads the list
(`len`, subscripting), so the heap is returned unchanged. -/
def galois_lfsrSP (state : List Nat) : Except String Nat × List Nat :=
  (galois_lfsr state, state)

/-- The `functions` catalog in store-passing form, used to state heap-related
properties (absence of mutation, absence of internal state). -/
def functionsSP : List (String × (List Nat → Except String Nat × List Nat)) :=
  [("Grain Stream Cipher", grain_feedbackSP),
   ("Trivium Stream Cipher", trivium_feedbackSP),
   ("Alternating Step Generator", alternating_step_generatorSP),
   ("Majority Function", majority_functionSP),
   ("Threshold (70%)", threshold_with_feedbackSP),
   ("Even Parity", even_paritySP),
   ("Galois LFSR", galois_lfsrSP)]

/-- Modelled from the spec: the integer of a bit list, least-significant bit
first.  States are "equivalently representable as an unsigned integer in
`[0, 2^n)`" (spec section 3); this fixes that correspondence for the engine in
`nfsr_cycle_calculator.py`, whose source is not available. -/
def bitsToNat : List Nat → Nat
  | [] => 0
  | b :: rest => b + 2 * bitsToNat rest

/-- Modelled from the spec: the bit list of length `n` representing an integer,
least-significant bit first (inverse of `bitsToNat` on `[0, 2^n)`). -/
def natToBits : Nat → Nat → List Nat
  | 0, _ => []
  | n + 1, x => x % 2 :: natToBits n (x / 2)

/-- Modelled from the spec: the register transition of
`nfsr_cycle_calculator.py` (spec section 4.1), whose source is not available:
drop the oldest bit of the state, append the feedback bit at the vacated
position (Fibonacci style), on integer-coded states.  Index 0 of the bit list
is taken as the oldest bit. -/
def step (n : Nat) (f : List Nat → Nat) (x : Nat) : Nat :=
  bitsToNat ((natToBits n x).tail ++ [f (natToBits n x)])

/-- Modelled from the spec: one walk of the cycle-decomposition engine of
`nfsr_cycle_calculator.py` (spec section 4.2, step 2), whose source is not
available.  Starting from `cur`, follow `g`, recording the walk in `path`
(most recent state first).  Hitting an already classified state (`done`)
makes the whole walk transient; hitting a state of the current walk closes a
new cycle, the states walked before the repeat being transient.  Returns
`(cycle, transients)`.  `fuel` bounds the walk; the engine always supplies
more fuel than there are states, which a walk cannot exhaust since every step
pushes a state not yet in `path`. -/
def walk (g : Nat → Nat) (done : List Nat) : Nat → Nat → List Nat → List Nat × List Nat
  | 0, _, path => ([], path)
  | fuel + 1, cur, path =>
    if cur ∈ done then
      ([], path)
    else if cur ∈ path then
      (path.takeWhile (fun x => x != cur) ++ [cur],
       (path.dropWhile (fun x => x != cur)).tail)
    else
      walk g done fuel (g cur) (cur :: path)

/-- Modelled from the spec: the main loop of the cycle-decomposition engine
(spec section 4.2, steps 1-4), whose source is not available.  Walks are
started from every state in `starts` in order; states already classified
(member of a recorded cycle or of the transient list) are skipped.  Returns
the recorded cycles and the list of transient states. -/
def findCyclesAux (g : Nat → Nat) (fuel : Nat) :
    List Nat → List (List Nat) → List Nat → List (List Nat) × List Nat
  | [], cycles, transients => (cycles, transients)
  | s :: rest, cycles, transients =>
    if s ∈ cycles.join ++ transients then
      findCyclesAux g fuel rest cycles transients
    else if (walk g (cycles.join ++ transients) fuel s []).1.isEmpty then
      findCyclesAux g fuel rest cycles
        (transients ++ (walk g (cycles.join ++ transients) fuel s []).2)
    else
      findCyclesAux g fuel rest (cycles ++ [(walk g (cycles.join ++ transients) fuel s []).1])
        (transients ++ (walk g (cycles.join ++ transients) fuel s []).2)

/-- Modelled from the spec: `find_all_cycles` of `NFSRCycleCalculator`
(spec sections 4.2 and 6, `decompose`), whose source is not available: the
cycle decomposition of the functional graph of the register transition over
all `2^n` states, starting walks from every state in ascending order.
Returns the cycles together with the transient states. -/
def find_all_cycles (n : Nat) (f : List Nat → Nat) : List (List Nat) × List Nat :=
  findCyclesAux (step n f) (2 ^ n + 1) (List.range (2 ^ n)) [] []

/-! ### Helper lemmas about the embedded library -/

theorem except_bind_ok {α β : Type} (a : α) (f : α → Except String β) :
    Except.bind (Except.ok a) f = f a := rfl

theorem pyIndex_ok : ∀ (s : List Nat) (i : Nat), i < s.length →
    pyIndex s i = Except.ok (s.getD i 0) := by
  intro s
  induction s with
  | nil => intro i h; simp at h
  | cons a r ih =>
    intro i h
    cases i with
    | zero => simp [pyIndex]
    | succ j =>
      have hj : j < r.length := by simpa using h
      have hr := ih j hj
      simp only [pyIndex] at hr ⊢
      simpa [List.getElem?_cons_succ, List.getD_cons_succ] using hr

theorem getD_bit : ∀ (s : List Nat), (∀ b ∈ s, b = 0 ∨ b = 1) →
    ∀ i, s.getD i 0 = 0 ∨ s.getD i 0 = 1 := by
  intro s
  induction s with
  | nil => intro _ i; left; cases i <;> rfl
  | cons a r ih =>
    intro hb i
    cases i with
    | zero => simpa using hb a (by simp)
    | succ j =>
      simpa [List.getD_cons_succ] using ih (fun b m => hb b (by simp [m])) j

theorem sum_eq_count : ∀ (s : List Nat), (∀ b ∈ s, b = 0 ∨ b = 1) →
    s.sum = s.count 1 := by
  intro s
  induction s with
  | nil => intro _; rfl
  | cons a r ih =>
    intro hb
    have hr := ih (fun b m => hb b (by simp [m]))
    rcases hb a (by simp) with h0 | h1
    · subst h0; simp [List.count_cons, hr]
    · subst h1; simp [List.count_cons, hr]; omega

theorem grain_feedback_ok (s : List Nat) (h : ¬ s.length < 5) :
    grain_feedback s = Except.ok ((Nat.xor
      (Nat.xor (Nat.xor (Nat.xor (s.getD 0 0) (s.getD 1 0)) (s.getD 3 0)) (s.getD 4 0))
      (Nat.xor (Nat.xor (Nat.land (s.getD 1 0) (s.getD 2 0))
          (Nat.land (s.getD 2 0) (s.getD 3 0)))
        (Nat.land (s.getD 3 0) (s.getD 4 0)))) % 2) := by
  have h5 : 5 ≤ s.length := Nat.not_lt.mp h
  unfold grain_feedback
  rw [if_neg h]
  rw [pyIndex_ok s 0 (by omega), except_bind_ok]
  rw [pyIndex_ok s 1 (by omega), except_bind_ok]
  rw [pyIndex_ok s 2 (by omega), except_bind_ok]
  rw [pyIndex_ok s 3 (by omega), except_bind_ok]
  rw [pyIndex_ok s 4 (by omega), except_bind_ok]

theorem trivium_feedback_ok (s : List Nat) (h : ¬ s.length < 3) :
    trivium_feedback s = Except.ok
      ((Nat.xor (Nat.xor (s.getD 0 0) (s.getD 2 0))
        (Nat.land (s.getD 1 0) (s.getD 2 0))) % 2) := by
  have h3 : 3 ≤ s.length := Nat.not_lt.mp h
  unfold trivium_feedback
  rw [if_neg h]
  rw [pyIndex_ok s 0 (by omega), except_bind_ok]
  rw [pyIndex_ok s 1 (by omega), except_bind_ok]
  rw [pyIndex_ok s 2 (by omega), except_bind_ok]

theorem alternating_step_generator_ok (s : List Nat) (h : ¬ s.length < 3) :
    alternating_step_generator s =
      Except.ok (if s.getD 0 0 = 1 then s.getD 1 0 else s.getD 2 0) := by
  have h3 : 3 ≤ s.length := Nat.not_lt.mp h
  unfold alternating_step_generator
  rw [if_neg h]
  rw [pyIndex_ok s 0 (by omega), except_bind_ok]
  by_cases h0 : s.getD 0 0 = 1
  · rw [if_pos h0, if_pos h0, pyIndex_ok s 1 (by omega)]
  · rw [if_neg h0, if_neg h0, pyIndex_ok s 2 (by omega)]

theorem lookup_isSome_iff : ∀ (l : List (Nat × List Nat)) (a : Nat),
    (∃ b, List.lookup a l = some b) ↔ a ∈ l.map Prod.fst := by
  intro l
  induction l with
  | nil => intro a; simp [List.lookup]
  | cons p rest ih =>
    intro a
    rcases p with ⟨k, v⟩
    by_cases hk : a = k
    · subst hk; simp [List.lookup_cons]
    · have hf : (a == k) = false := beq_eq_false_iff_ne.mpr hk
      simp [List.lookup_cons, hf, hk, ih]

theorem lookup_taps_bound : ∀ (l : List (Nat × List Nat)),
    (∀ p ∈ l, ∀ t ∈ p.2, t < p.1) → ∀ (a : Nat) (ts : List Nat),
    List.lookup a l = some ts → ∀ t ∈ ts, t < a := by
  intro l
  induction l with
  | nil => intro _ a ts h; simp [List.lookup] at h
  | cons p rest ih =>
    intro hl a ts h
    rcases p with ⟨k, v⟩
    rw [List.lookup_cons] at h
    by_cases hk : a = k
    · subst hk
      have hbeq : (a == a) = true := beq_self_eq_true a
      rw [hbeq] at h
      have hv : v = ts := by simpa using h
      subst hv
      exact hl (a, v) (by simp)
    · have hf : (a == k) = false := beq_eq_false_iff_ne.mpr hk
      rw [hf] at h
      exact ih (fun p m => hl p (by simp [m])) a ts h

theorem tapsTable_keys : tapsTable.map Prod.fst = supportedLengths := by rfl

theorem tapsTable_bound : ∀ p ∈ tapsTable, ∀ t ∈ p.2, t < p.1 := by decide

theorem xorTaps_ok (s : List Nat) : ∀ (ts : List Nat) (acc : Nat),
    (∀ t ∈ ts, t < s.length) →
    xorTaps s ts acc = Except.ok (ts.foldl (fun r t => Nat.xor r (s.getD t 0)) acc) := by
  intro ts
  induction ts with
  | nil => intro acc _; rfl
  | cons tap rest ih =>
    intro acc hlt
    have h1 : tap < s.length := hlt tap (by simp)
    simp only [xorTaps]
    rw [pyIndex_ok s tap h1]
    exact ih (Nat.xor acc (s.getD tap 0)) (fun t m => hlt t (by simp [m]))

theorem foldl_xor_bit (s : List Nat) (hb : ∀ b ∈ s, b = 0 ∨ b = 1) :
    ∀ (ts : List Nat) (acc : Nat), acc = 0 ∨ acc = 1 →
    (ts.foldl (fun r t => Nat.xor r (s.getD t 0)) acc = 0 ∨
     ts.foldl (fun r t => Nat.xor r (s.getD t 0)) acc = 1) := by
  intro ts
  induction ts with
  | nil => intro acc h; simpa using h
  | cons tap rest ih =>
    intro acc hacc
    have hstep : Nat.xor acc (s.getD tap 0) = 0 ∨ Nat.xor acc (s.getD tap 0) = 1 := by
      rcases hacc with rfl | rfl <;> rcases getD_bit s hb tap with h | h <;> rw [h] <;> decide
    simp only [List.foldl_cons]
    exact ih (Nat.xor acc (s.getD tap 0)) hstep

theorem galois_lfsr_ok (s : List Nat) (ts : List Nat)
    (h : List.lookup s.length tapsTable = some ts) :
    galois_lfsr s = Except.ok (ts.foldl (fun r t => Nat.xor r (s.getD t 0)) 0) := by
  have hbound : ∀ t ∈ ts, t < s.length :=
    lookup_taps_bound tapsTable tapsTable_bound s.length ts h
  unfold galois_lfsr
  rw [h]
  exact xorTaps_ok s ts 0 hbound

theorem nat_xor_assoc (a b c : Nat) :
    Nat.xor (Nat.xor a b) c = Nat.xor a (Nat.xor b c) := Nat.xor_assoc a b c

theorem lenOk_eval_grain (k : Nat) : lenOk "Grain Stream Cipher" k = decide (5 ≤ k) := rfl

theorem lenOk_eval_trivium (k : Nat) : lenOk "Trivium Stream Cipher" k = decide (3 ≤ k) := rfl

theorem lenOk_eval_asg (k : Nat) : lenOk "Alternating Step Generator" k = decide (3 ≤ k) := rfl

theorem lenOk_eval_galois (k : Nat) : lenOk "Galois LFSR" k = supportedLengths.contains k := rfl

theorem lenOk_eval_majority (k : Nat) : lenOk "Majority Function" k = decide (1 ≤ k) := rfl

theorem lenOk_eval_threshold (k : Nat) : lenOk "Threshold (70%)" k = decide (1 ≤ k) := rfl

theorem lenOk_eval_parity (k : Nat) : lenOk "Even Parity" k = decide (1 ≤ k) := rfl

/-! ### Claim theorems about the example feedback function library -/

/-- C5: `grain_feedback` raises a ValueError exactly when the state has fewer
than 5 bits; on any 0/1 state with at least 5 bits it returns, without
failing, the value x0 XOR x1 XOR x3 XOR x4 XOR (x1 AND x2) XOR (x2 AND x3)
XOR (x3 AND x4) reduced mod 2, which lies in {0, 1}. -/
theorem grain_feedback_spec (s : List Nat) (hb : ∀ b ∈ s, b = 0 ∨ b = 1) :
    ((∃ e, grain_feedback s = Except.error e) ↔ s.length < 5) ∧
    (5 ≤ s.length →
      grain_feedback s = Except.ok ((Nat.xor (Nat.xor (Nat.xor (Nat.xor (Nat.xor (Nat.xor
        (s.getD 0 0) (s.getD 1 0)) (s.getD 3 0)) (s.getD 4 0))
        (Nat.land (s.getD 1 0) (s.getD 2 0)))
        (Nat.land (s.getD 2 0) (s.getD 3 0)))
        (Nat.land (s.getD 3 0) (s.getD 4 0))) % 2)) ∧
    (∀ b, grain_feedback s = Except.ok b → b = 0 ∨ b = 1) := by
  by_cases h : s.length < 5
  · have herr : grain_feedback s =
        Except.error "Grain feedback function requires at least 5 bits in the register" := by
      unfold grain_feedback; rw [if_pos h]
    refine ⟨⟨fun _ => h, fun _ => ⟨_, herr⟩⟩, fun h5 => absurd h5 (by omega), ?_⟩
    intro b hbeq
    rw [herr] at hbeq
    simp at hbeq
  · have hok := grain_feedback_ok s h
    refine ⟨⟨?_, fun hlt => absurd hlt h⟩, fun _ => ?_, ?_⟩
    · rintro ⟨e, he⟩
      rw [hok] at he
      simp at he
    · rw [hok]
      congr 2
      simp [nat_xor_assoc]
    · intro b hbeq
      rw [hok] at hbeq
      simp only [Except.ok.injEq] at hbeq
      rw [← hbeq]
      exact Nat.mod_two_eq_zero_or_one _

theorem grain_feedback_spec_witness :
    ((∃ e, grain_feedback [1, 0, 1, 1, 0] = Except.error e) ↔
      [1, 0, 1, 1, 0].length < 5) ∧
    (5 ≤ [1, 0, 1, 1, 0].length →
      grain_feedback [1, 0, 1, 1, 0] = Except.ok ((Nat.xor (Nat.xor (Nat.xor (Nat.xor (Nat.xor (Nat.xor
        ([1, 0, 1, 1, 0].getD 0 0) ([1, 0, 1, 1, 0].getD 1 0)) ([1, 0, 1, 1, 0].getD 3 0))
        ([1, 0, 1, 1, 0].getD 4 0))
        (Nat.land ([1, 0, 1, 1, 0].getD 1 0) ([1, 0, 1, 1, 0].getD 2 0)))
        (Nat.land ([1, 0, 1, 1, 0].getD 2 0) ([1, 0, 1, 1, 0].getD 3 0)))
        (Nat.land ([1, 0, 1, 1, 0].getD 3 0) ([1, 0, 1, 1, 0].getD 4 0))) % 2)) ∧
    (∀ b, grain_feedback [1, 0, 1, 1, 0] = Except.ok b → b = 0 ∨ b = 1) :=
  grain_feedback_spec [1, 0, 1, 1, 0] (by decide)

/-- C8: `grain_feedback` depends only on the first five bits of the state:
two 0/1 states of length at least 5 that agree at indices 0 through 4 get the
same result. -/
theorem grain_feedback_first_five (s t : List Nat)
    (hs : 5 ≤ s.length) (ht : 5 ≤ t.length)
    (hbs : ∀ b ∈ s, b = 0 ∨ b = 1) (hbt : ∀ b ∈ t, b = 0 ∨ b = 1)
    (hagree : ∀ i, i < 5 → s.getD i 0 = t.getD i 0) :
    grain_feedback s = grain_feedback t := by
  rw [grain_feedback_ok s (by omega), grain_feedback_ok t (by omega)]
  rw [hagree 0 (by omega), hagree 1 (by omega), hagree 2 (by omega),
    hagree 3 (by omega), hagree 4 (by omega)]

theorem grain_feedback_first_five_witness :
    grain_feedback [1, 0, 1, 1, 1] = grain_feedback [1, 0, 1, 1, 1, 0, 1] :=
  grain_feedback_first_five [1, 0, 1, 1, 1] [1, 0, 1, 1, 1, 0, 1]
    (by decide) (by decide) (by decide) (by decide) (by decide)

/-- C9: `majority_function` is total on 0/1 states, the empty state included,
and returns 1 exactly when the number of ones strictly exceeds half the
length rounded down (so 0 on the empty state and on even-length ties). -/
theorem majority_function_spec (s : List Nat) (hb : ∀ b ∈ s, b = 0 ∨ b = 1) :
    majority_function s = Except.ok (if s.length / 2 < s.count 1 then 1 else 0) := by
  unfold majority_function
  rw [sum_eq_count s hb]

theorem majority_function_spec_witness :
    majority_function [1, 1, 0, 0] =
      Except.ok (if [1, 1, 0, 0].length / 2 < [1, 1, 0, 0].count 1 then 1 else 0) :=
  majority_function_spec [1, 1, 0, 0] (by decide)

/-- C10: `even_parity` is total on 0/1 states, the empty state included, and
returns `sum(state) % 2`: 1 exactly when the number of ones is odd, else 0. -/
theorem even_parity_spec (s : List Nat) (hb : ∀ b ∈ s, b = 0 ∨ b = 1) :
    even_parity s = Except.ok (if Odd (s.count 1) then 1 else 0) := by
  unfold even_parity
  rw [sum_eq_count s hb]
  congr 1
  rcases Nat.even_or_odd (s.count 1) with h | h
  · rw [if_neg (Nat.even_iff_not_odd.mp h)]
    exact Nat.even_iff.mp h
  · rw [if_pos h]
    exact Nat.odd_iff.mp h

theorem even_parity_spec_witness :
    even_parity [1, 1, 1, 0] = Except.ok (if Odd ([1, 1, 1, 0].count 1) then 1 else 0) :=
  even_parity_spec [1, 1, 1, 0] (by decide)

/-- C4: `galois_lfsr` raises exactly when the state's length is not one of the
supported lengths 2..11, 15..25, 28..32 of its tap table; on every 0/1 state
of a supported length it returns, without failing, the XOR of the state bits
at that length's tap positions, a value in {0, 1}. -/
theorem galois_lfsr_spec (s : List Nat) (hb : ∀ b ∈ s, b = 0 ∨ b = 1) :
    ((∃ e, galois_lfsr s = Except.error e) ↔ s.length ∉ supportedLengths) ∧
    (∀ ts, List.lookup s.length tapsTable = some ts →
      galois_lfsr s = Except.ok (ts.foldl (fun r t => Nat.xor r (s.getD t 0)) 0) ∧
      (ts.foldl (fun r t => Nat.xor r (s.getD t 0)) 0 = 0 ∨
       ts.foldl (fun r t => Nat.xor r (s.getD t 0)) 0 = 1)) := by
  constructor
  · constructor
    · rintro ⟨e, he⟩ hmem
      rw [← tapsTable_keys] at hmem
      obtain ⟨ts, hts⟩ := (lookup_isSome_iff tapsTable s.length).mpr hmem
      rw [galois_lfsr_ok s ts hts] at he
      simp at he
    · intro hnot
      rcases hlk : List.lookup s.length tapsTable with _ | ts
      · have herr : galois_lfsr s =
            Except.error ("No tap positions defined for register length " ++
              toString s.length) := by
          unfold galois_lfsr
          rw [hlk]
        exact ⟨_, herr⟩
      · have hmem : s.length ∈ supportedLengths := by
          rw [← tapsTable_keys]
          exact (lookup_isSome_iff tapsTable s.length).mp ⟨ts, hlk⟩
        exact absurd hmem hnot
  · intro ts hts
    exact ⟨galois_lfsr_ok s ts hts, foldl_xor_bit s hb ts 0 (Or.inl rfl)⟩

theorem galois_lfsr_spec_witness :
    ((∃ e, galois_lfsr [1, 1] = Except.error e) ↔ [1, 1].length ∉ supportedLengths) ∧
    (∀ ts, List.lookup [1, 1].length tapsTable = some ts →
      galois_lfsr [1, 1] = Except.ok (ts.foldl (fun r t => Nat.xor r ([1, 1].getD t 0)) 0) ∧
      (ts.foldl (fun r t => Nat.xor r ([1, 1].getD t 0)) 0 = 0 ∨
       ts.foldl (fun r t => Nat.xor r ([1, 1].getD t 0)) 0 = 1)) :=
  galois_lfsr_spec [1, 1] (by decide)

/-- C2: every function of the `functions` catalog, applied to a 0/1 state
whose length satisfies that function's own length precondition, returns
without failing a value that is exactly 0 or 1. -/
theorem functions_single_bit :
    ∀ p ∈ functions, ∀ s : List Nat, (∀ b ∈ s, b = 0 ∨ b = 1) →
    lenOk p.1 s.length = true →
    ∃ b, p.2 s = Except.ok b ∧ (b = 0 ∨ b = 1) := by
  intro p hp s hb hlen
  simp only [functions, List.mem_cons, List.not_mem_nil, or_false] at hp
  rcases hp with rfl | rfl | rfl | rfl | rfl | rfl | rfl
  · rw [lenOk_eval_grain] at hlen
    have h5 : 5 ≤ s.length := of_decide_eq_true hlen
    exact ⟨_, grain_feedback_ok s (by omega), Nat.mod_two_eq_zero_or_one _⟩
  · rw [lenOk_eval_trivium] at hlen
    have h3 : 3 ≤ s.length := of_decide_eq_true hlen
    exact ⟨_, trivium_feedback_ok s (by omega), Nat.mod_two_eq_zero_or_one _⟩
  · rw [lenOk_eval_asg] at hlen
    have h3 : 3 ≤ s.length := of_decide_eq_true hlen
    refine ⟨_, alternating_step_generator_ok s (by omega), ?_⟩
    by_cases h0 : s.getD 0 0 = 1
    · rw [if_pos h0]; exact getD_bit s hb 1
    · rw [if_neg h0]; exact getD_bit s hb 2
  · refine ⟨if s.length / 2 < s.sum then 1 else 0, rfl, ?_⟩
    by_cases hm : s.length / 2 < s.sum
    · rw [if_pos hm]; right; rfl
    · rw [if_neg hm]; left; rfl
  · rw [lenOk_eval_threshold] at hlen
    have h1 : 1 ≤ s.length := of_decide_eq_true hlen
    by_cases hq : (7 : ℚ) / 10 ≤ (s.sum : ℚ) / (s.length : ℚ)
    · refine ⟨1, ?_, Or.inr rfl⟩
      show threshold_with_feedback s = Except.ok 1
      unfold threshold_with_feedback threshold_function
      rw [if_neg (by omega : ¬ s.length = 0), if_pos hq]
    · refine ⟨0, ?_, Or.inl rfl⟩
      show threshold_with_feedback s = Except.ok 0
      unfold threshold_with_feedback threshold_function
      rw [if_neg (by omega : ¬ s.length = 0), if_neg hq]
  · exact ⟨s.sum % 2, rfl, Nat.mod_two_eq_zero_or_one _⟩
  · rw [lenOk_eval_galois] at hlen
    have hmem : s.length ∈ supportedLengths := by simpa using hlen
    rw [← tapsTable_keys] at hmem
    obtain ⟨ts, hts⟩ := (lookup_isSome_iff tapsTable s.length).mpr hmem
    exact ⟨_, galois_lfsr_ok s ts hts, foldl_xor_bit s hb ts 0 (Or.inl rfl)⟩

theorem functions_single_bit_witness :
    ∃ b, ("Even Parity", even_parity).2 [1, 0, 1] = Except.ok b ∧ (b = 0 ∨ b = 1) :=
  functions_single_bit ("Even Parity", even_parity) (by simp [functions]) [1, 0, 1]
    (by decide) (by rfl)

/-- C3: every function of the catalog is deterministic and carries no internal
state: in the store-passing model, calling it a second time on the register
list left by a first call returns the same bit as the first call. -/
theorem functionsSP_second_call_same_bit :
    ∀ p ∈ functionsSP, ∀ s : List Nat, (p.2 ((p.2 s).2)).1 = (p.2 s).1 := by
  intro p hp s
  simp only [functionsSP, List.mem_cons, List.not_mem_nil, or_false] at hp
  rcases hp with rfl | rfl | rfl | rfl | rfl | rfl | rfl <;> rfl

theorem functionsSP_second_call_same_bit_witness :
    (("Grain Stream Cipher", grain_feedbackSP).2
      ((("Grain Stream Cipher", grain_feedbackSP).2 [1, 1, 0, 1, 0]).2)).1 =
    (("Grain Stream Cipher", grain_feedbackSP).2 [1, 1, 0, 1, 0]).1 :=
  functionsSP_second_call_same_bit ("Grain Stream Cipher", grain_feedbackSP)
    (by simp [functionsSP]) [1, 1, 0, 1, 0]

/-- C6: no function of the catalog mutates the register list passed to it: in
the store-passing model, the heap returned by any call (returning or raising)
is the input list itself, whatever its length or contents. -/
theorem functionsSP_no_mutation :
    ∀ p ∈ functionsSP, ∀ s : List Nat, (p.2 s).2 = s := by
  intro p hp s
  simp only [functionsSP, List.mem_cons, List.not_mem_nil, or_false] at hp
  rcases hp with rfl | rfl | rfl | rfl | rfl | rfl | rfl <;> rfl

theorem functionsSP_no_mutation_witness :
    (("Galois LFSR", galois_lfsrSP).2 [1, 0, 1]).2 = [1, 0, 1] :=
  functionsSP_no_mutation ("Galois LFSR", galois_lfsrSP) (by simp [functionsSP]) [1, 0, 1]

/-! ### Helper lemmas about the modelled cycle-decomposition engine -/

theorem dropWhile_mem_head (cur : Nat) :
    ∀ (l : List Nat), cur ∈ l →
    l.dropWhile (fun x => x != cur) = cur :: (l.dropWhile (fun x => x != cur)).tail := by
  intro l
  induction l with
  | nil => intro h; simp at h
  | cons a r ih =>
    intro h
    by_cases ha : a = cur
    · subst ha
      rw [List.dropWhile_cons, if_neg (by simp)]
      rfl
    · have hr : cur ∈ r := by
        rcases List.mem_cons.mp h with h1 | h1
        · exact absurd h1.symm ha
        · exact h1
      have hba : ((fun x => x != cur) a) = true := by simpa using ha
      rw [List.dropWhile_cons, if_pos hba]
      exact ih hr

theorem walk_partition (g : Nat → Nat) (N : Nat) (hg : ∀ x, x < N → g x < N)
    (done : List Nat) :
    ∀ (fuel cur : Nat) (path : List Nat),
      path.Nodup → (∀ x ∈ path, x ∉ done) → (∀ x ∈ path, x < N) → cur < N →
      (((walk g done fuel cur path).1 ++ (walk g done fuel cur path).2).Nodup ∧
       (∀ x ∈ (walk g done fuel cur path).1 ++ (walk g done fuel cur path).2,
         x ∉ done ∧ x < N) ∧
       (∀ x ∈ path, x ∈ (walk g done fuel cur path).1 ++ (walk g done fuel cur path).2) ∧
       (cur ∉ done → 0 < fuel →
         cur ∈ (walk g done fuel cur path).1 ++ (walk g done fuel cur path).2)) := by
  intro fuel
  induction fuel with
  | zero =>
    intro cur path hnd hdone hlt hcur
    simp only [walk]
    refine ⟨by simpa using hnd, ?_, ?_, ?_⟩
    · intro x hx
      have hp : x ∈ path := by simpa using hx
      exact ⟨hdone x hp, hlt x hp⟩
    · intro x hx; simpa using hx
    · intro _ h0; exact absurd h0 (by omega)
  | succ fuel ih =>
    intro cur path hnd hdone hlt hcur
    simp only [walk]
    by_cases hd : cur ∈ done
    · rw [if_pos hd]
      refine ⟨by simpa using hnd, ?_, ?_, ?_⟩
      · intro x hx
        have hp : x ∈ path := by simpa using hx
        exact ⟨hdone x hp, hlt x hp⟩
      · intro x hx; simpa using hx
      · intro hnd2 _; exact absurd hd hnd2
    · rw [if_neg hd]
      by_cases hp : cur ∈ path
      · rw [if_pos hp]
        have hkey : (path.takeWhile (fun x => x != cur) ++ [cur]) ++
            (path.dropWhile (fun x => x != cur)).tail = path := by
          rw [List.append_assoc]
          rw [show [cur] ++ (path.dropWhile (fun x => x != cur)).tail =
              cur :: (path.dropWhile (fun x => x != cur)).tail from rfl]
          rw [← dropWhile_mem_head cur path hp]
          exact List.takeWhile_append_dropWhile _ _
        dsimp only
        rw [hkey]
        exact ⟨hnd, fun x hx => ⟨hdone x hx, hlt x hx⟩, fun x hx => hx, fun _ _ => hp⟩
      · rw [if_neg hp]
        have hnd2 : (cur :: path).Nodup := by simp [List.nodup_cons, hp, hnd]
        have hdone2 : ∀ x ∈ cur :: path, x ∉ done := by
          intro x hx
          rcases List.mem_cons.mp hx with rfl | hx2
          · exact hd
          · exact hdone x hx2
        have hlt2 : ∀ x ∈ cur :: path, x < N := by
          intro x hx
          rcases List.mem_cons.mp hx with rfl | hx2
          · exact hcur
          · exact hlt x hx2
        obtain ⟨a, b, c, d⟩ := ih (g cur) (cur :: path) hnd2 hdone2 hlt2 (hg cur hcur)
        refine ⟨a, b, ?_, ?_⟩
        · intro x hx
          exact c x (List.mem_cons_of_mem _ hx)
        · intro _ _
          exact c cur (List.mem_cons_self _ _)

theorem findCyclesAux_partition (g : Nat → Nat) (N : Nat) (hg : ∀ x, x < N → g x < N)
    (fuel : Nat) :
    ∀ (starts : List Nat) (cycles : List (List Nat)) (transients : List Nat),
      (cycles.join ++ transients).Nodup →
      (∀ x ∈ cycles.join ++ transients, x < N) →
      (∀ s ∈ starts, s < N) → 0 < fuel →
      (((findCyclesAux g fuel starts cycles transients).1.join ++
          (findCyclesAux g fuel starts cycles transients).2).Nodup ∧
       (∀ x ∈ (findCyclesAux g fuel starts cycles transients).1.join ++
          (findCyclesAux g fuel starts cycles transients).2, x < N) ∧
       (∀ x ∈ cycles.join ++ transients,
         x ∈ (findCyclesAux g fuel starts cycles transients).1.join ++
           (findCyclesAux g fuel starts cycles transients).2) ∧
       (∀ s ∈ starts,
         s ∈ (findCyclesAux g fuel starts cycles transients).1.join ++
           (findCyclesAux g fuel starts cycles transients).2)) := by
  intro starts
  induction starts with
  | nil =>
    intro cycles transients hnd hlt _ _
    simp only [findCyclesAux]
    exact ⟨hnd, hlt, fun x hx => hx, by simp⟩
  | cons s rest ih =>
    intro cycles transients hnd hlt hstarts hfuel
    have hrest : ∀ x ∈ rest, x < N := fun x hx => hstarts x (List.mem_cons_of_mem _ hx)
    simp only [findCyclesAux]
    by_cases hs : s ∈ cycles.join ++ transients
    · rw [if_pos hs]
      obtain ⟨a, b, c, d⟩ := ih cycles transients hnd hlt hrest hfuel
      refine ⟨a, b, c, ?_⟩
      intro x hx
      rcases List.mem_cons.mp hx with rfl | hx2
      · exact c x hs
      · exact d x hx2
    · rw [if_neg hs]
      have hscur : s < N := hstarts s (List.mem_cons_self _ _)
      obtain ⟨wnd, wprop, _, wcur⟩ := walk_partition g N hg (cycles.join ++ transients)
        fuel s [] (by simp) (by simp) (by simp) hscur
      set w := walk g (cycles.join ++ transients) fuel s [] with hw
      have hsw : s ∈ w.1 ++ w.2 := wcur hs hfuel
      by_cases hempty : w.1.isEmpty
      · rw [if_pos hempty]
        have h1 : w.1 = [] := List.isEmpty_iff.mp hempty
        have hornd : (cycles.join ++ (transients ++ w.2)).Nodup := by
          rw [← List.append_assoc]
          rw [List.nodup_append]
          refine ⟨hnd, ?_, ?_⟩
          · have h2 := wnd
            rw [h1] at h2
            simpa using h2
          · intro x hx1 hx2
            have hx3 : x ∈ w.1 ++ w.2 := by
              rw [h1]
              simpa using hx2
            exact (wprop x hx3).1 hx1
        have horlt : ∀ x ∈ cycles.join ++ (transients ++ w.2), x < N := by
          intro x hx
          rw [← List.append_assoc] at hx
          rcases List.mem_append.mp hx with hx1 | hx2
          · exact hlt x hx1
          · exact (wprop x (by rw [h1]; simpa using hx2)).2
        obtain ⟨a, b, c, d⟩ := ih cycles (transients ++ w.2) hornd horlt hrest hfuel
        refine ⟨a, b, ?_, ?_⟩
        · intro x hx
          apply c
          rw [← List.append_assoc]
          exact List.mem_append_left _ hx
        · intro x hx
          rcases List.mem_cons.mp hx with rfl | hx2
          · apply c
            rw [← List.append_assoc]
            apply List.mem_append_right
            rw [h1] at hsw
            simpa using hsw
          · exact d x hx2
      · rw [if_neg hempty]
        have hjoin : (cycles ++ [w.1]).join = cycles.join ++ w.1 := by
          simp [List.join_append]
        have hperm : ((cycles ++ [w.1]).join ++ (transients ++ w.2)).Perm
            ((cycles.join ++ transients) ++ (w.1 ++ w.2)) := by
          rw [hjoin]
          rw [List.append_assoc cycles.join w.1 (transients ++ w.2),
            List.append_assoc cycles.join transients (w.1 ++ w.2)]
          apply List.Perm.append_left
          rw [← List.append_assoc, ← List.append_assoc]
          exact List.Perm.append_right _ List.perm_append_comm
        have hDnd : ((cycles ++ [w.1]).join ++ (transients ++ w.2)).Nodup := by
          apply (List.Perm.nodup_iff hperm).mpr
          rw [List.nodup_append]
          refine ⟨hnd, wnd, ?_⟩
          intro x hx1 hx2
          exact (wprop x hx2).1 hx1
        have hDlt : ∀ x ∈ (cycles ++ [w.1]).join ++ (transients ++ w.2), x < N := by
          intro x hx
          rcases List.mem_append.mp ((List.Perm.mem_iff hperm).mp hx) with h1 | h2
          · exact hlt x h1
          · exact (wprop x h2).2
        have hDold : ∀ x ∈ cycles.join ++ transients,
            x ∈ (cycles ++ [w.1]).join ++ (transients ++ w.2) := by
          intro x hx
          exact (List.Perm.mem_iff hperm).mpr (List.mem_append_left _ hx)
        have hDs : s ∈ (cycles ++ [w.1]).join ++ (transients ++ w.2) :=
          (List.Perm.mem_iff hperm).mpr (List.mem_append_right _ hsw)
        obtain ⟨a, b, c, d⟩ := ih (cycles ++ [w.1]) (transients ++ w.2) hDnd hDlt hrest hfuel
        refine ⟨a, b, fun x hx => c x (hDold x hx), ?_⟩
        intro x hx
        rcases List.mem_cons.mp hx with rfl | hx2
        · exact c x hDs
        · exact d x hx2

theorem natToBits_length : ∀ (n x : Nat), (natToBits n x).length = n := by
  intro n
  induction n with
  | zero => intro x; rfl
  | succ m ih => intro x; simp [natToBits, ih]

theorem natToBits_bits : ∀ (n x : Nat), ∀ b ∈ natToBits n x, b = 0 ∨ b = 1 := by
  intro n
  induction n with
  | zero => intro x b hb; simp [natToBits] at hb
  | succ m ih =>
    intro x b hb
    simp only [natToBits] at hb
    rcases List.mem_cons.mp hb with rfl | hb2
    · exact Nat.mod_two_eq_zero_or_one x
    · exact ih (x / 2) b hb2

theorem bitsToNat_lt : ∀ (l : List Nat), (∀ b ∈ l, b = 0 ∨ b = 1) →
    bitsToNat l < 2 ^ l.length := by
  intro l
  induction l with
  | nil => intro _; simp [bitsToNat]
  | cons b r ih =>
    intro hb
    have hr := ih (fun x m => hb x (List.mem_cons_of_mem _ m))
    have hbb := hb b (List.mem_cons_self _ _)
    simp only [bitsToNat, List.length_cons]
    rw [pow_succ]
    rcases hbb with rfl | rfl <;> omega

theorem step_lt (n : Nat) (f : List Nat → Nat) (hn : 0 < n)
    (hf : ∀ s : List Nat, s.length = n → (∀ b ∈ s, b = 0 ∨ b = 1) →
      (f s = 0 ∨ f s = 1)) :
    ∀ x, x < 2 ^ n → step n f x < 2 ^ n := by
  intro x _
  unfold step
  have hlen : ((natToBits n x).tail ++ [f (natToBits n x)]).length = n := by
    simp [List.length_append, List.length_tail, natToBits_length]
    omega
  have hbits : ∀ b ∈ (natToBits n x).tail ++ [f (natToBits n x)], b = 0 ∨ b = 1 := by
    intro b hbmem
    rcases List.mem_append.mp hbmem with h1 | h2
    · exact natToBits_bits n x b (List.mem_of_mem_tail h1)
    · have hb2 : b = f (natToBits n x) := by simpa using h2
      subst hb2
      exact hf (natToBits n x) (natToBits_length n x) (natToBits_bits n x)
  have hfin := bitsToNat_lt _ hbits
  rw [hlen] at hfin
  exact hfin

/-- C1: coverage of the decomposition, modelled from the spec since the
engine's source is not available: for every valid pair (n, feedback) — n a
positive register length and feedback a total 0/1-valued function on n-bit
states — the states across all cycles reported by `find_all_cycles` plus the
count of transient states sum to exactly `2^n`, and no state appears in more
than one cycle (the concatenation of the reported cycles has no duplicate). -/
theorem find_all_cycles_coverage (n : Nat) (f : List Nat → Nat) (hn : 0 < n)
    (hf : ∀ s : List Nat, s.length = n → (∀ b ∈ s, b = 0 ∨ b = 1) →
      (f s = 0 ∨ f s = 1)) :
    ((find_all_cycles n f).1.join.length + (find_all_cycles n f).2.length = 2 ^ n) ∧
    (find_all_cycles n f).1.join.Nodup := by
  have hg := step_lt n f hn hf
  obtain ⟨a, b, _, d⟩ := findCyclesAux_partition (step n f) (2 ^ n) hg (2 ^ n + 1)
    (List.range (2 ^ n)) [] [] (by simp) (by simp)
    (fun s hs => List.mem_range.mp hs) (Nat.succ_pos (2 ^ n))
  have hfc : find_all_cycles n f =
      findCyclesAux (step n f) (2 ^ n + 1) (List.range (2 ^ n)) [] [] := rfl
  rw [hfc]
  set R := findCyclesAux (step n f) (2 ^ n + 1) (List.range (2 ^ n)) [] [] with hR
  constructor
  · have h1 : (R.1.join ++ R.2).Subperm (List.range (2 ^ n)) :=
      List.subperm_of_subset a (fun x hx => List.mem_range.mpr (b x hx))
    have h2 : (List.range (2 ^ n)).Subperm (R.1.join ++ R.2) :=
      List.subperm_of_subset (List.nodup_range _) (fun x hx => d x hx)
    have h3 := Nat.le_antisymm (List.Subperm.length_le h1) (List.Subperm.length_le h2)
    rw [List.length_append, List.length_range] at h3
    exact h3
  · exact (List.nodup_append.mp a).1

theorem find_all_cycles_coverage_witness :
    ((find_all_cycles 2 (fun s => s.getD 0 0)).1.join.length +
      (find_all_cycles 2 (fun s => s.getD 0 0)).2.length = 2 ^ 2) ∧
    (find_all_cycles 2 (fun s => s.getD 0 0)).1.join.Nodup :=
  find_all_cycles_coverage 2 (fun s => s.getD 0 0) (by decide)
    (fun s _ hb => getD_bit s hb 0)

end NFSRCycle
